import Mathlib

/-!
Verification of the console-driven test-automation engine in
scripts/test-integration.py (Fornax integration-test harness).

The development shallowly embeds the core of the script:

* QemuDriver state: the subprocess handle (proc), the working buffer
  (buf), and the append-only transcript (full_log).  Bytes are modelled
  as natural numbers.  The OS-side pipe of not-yet-read subprocess
  output is modelled explicitly as a byte list (pipe) so that the
  "read at most 4096 bytes per poll" behaviour of os.read is visible.

* QemuDriver.expect: the polling loop is embedded as a function over an
  explicit list of environment events.  Each Event describes one loop
  iteration's external conditions: the bytes that arrive on the pipe
  during the select wait (arrival), the time that elapses (dt, in
  abstract ticks), and the result of proc.poll() (exited).  Matching is
  abstracted to an arbitrary search function of the same shape as
  Python's re-module search over bytes: it returns the (start, end)
  offsets of a match, end exclusive, or nothing.

* QemuDriver.send_cmd's marker generation, the fail-fast test ladder of
  main, and QemuDriver.stop are embedded as pure functions.
-/

namespace Fornax

/-- Driver state of class QemuDriver: proc is the subprocess handle
(some pid when live, none when stopped), buf the working buffer,
full_log the transcript.  pipe models the OS pipe holding subprocess
output that the driver has not read yet. -/
structure QemuDriver where
  proc : Option Nat
  pipe : List Nat
  buf : List Nat
  full_log : List Nat
deriving DecidableEq, Repr

/-- External conditions of one iteration of the expect loop: bytes
arriving on the pipe during the select wait, elapsed ticks, and the
proc.poll() observation (some code once the subprocess has exited). -/
structure Event where
  arrival : List Nat
  dt : Nat
  exited : Option Int
deriving DecidableEq, Repr

/-- Outcome of an expect call.  matched returns the match offsets
(relative to the working buffer at match time, end exclusive) as
Python's re match object does; timeout models raising TimeoutError
with the diagnostic byte slice; procExit models raising RuntimeError
with the subprocess exit code; fuelOut means the modelled event list
was exhausted while the loop would have kept polling. -/
inductive ExpectResult where
  | matched (s e : Nat) (st : QemuDriver)
  | timeout (recent : List Nat) (st : QemuDriver)
  | procExit (code : Int) (st : QemuDriver)
  | fuelOut (st : QemuDriver)
deriving DecidableEq, Repr

/-- The driver state carried by an ExpectResult. -/
def stateOf : ExpectResult → QemuDriver
  | .matched _ _ st => st
  | .timeout _ st => st
  | .procExit _ st => st
  | .fuelOut st => st

/-- The diagnostic slice attached to a timeout:
buf[-500:] if len(buf) > 500 else buf. -/
def recentBuf (b : List Nat) : List Nat :=
  if 500 < b.length then b.drop (b.length - 500) else b

/-- One read phase of an expect-loop iteration: select reports the
descriptor readable iff bytes are available; if so a single
os.read(fd, 4096) takes at most 4096 bytes, and a nonempty chunk is
appended to both the working buffer and the transcript. -/
def expectStep (st : QemuDriver) (arrival : List Nat) : QemuDriver :=
  let avail := st.pipe ++ arrival
  if avail.isEmpty then { st with pipe := avail }
  else
    let chunk := avail.take 4096
    if chunk.isEmpty then { st with pipe := avail }
    else { st with pipe := avail.drop 4096,
                   buf := st.buf ++ chunk,
                   full_log := st.full_log ++ chunk }

/-- The loop of QemuDriver.expect.  d is the deadline, the second
explicit Nat argument the current monotonic time.  Each iteration:
(1) if the deadline has passed, raise the timeout with the recent
buffer slice; (2) poll / read via expectStep; (3) search the working
buffer, and on a match truncate it up to the match end and return;
(4) if the subprocess has exited, raise procExit; else loop. -/
def expectLoop (f : List Nat → Option (Nat × Nat)) (d : Nat) :
    Nat → QemuDriver → List Event → ExpectResult
  | now, st, [] =>
    if d ≤ now then .timeout (recentBuf st.buf) st else .fuelOut st
  | now, st, ev :: rest =>
    if d ≤ now then .timeout (recentBuf st.buf) st
    else
      let st1 := expectStep st ev.arrival
      match f st1.buf with
      | some (s, e) => .matched s e { st1 with buf := st1.buf.drop e }
      | none =>
        match ev.exited with
        | some c => .procExit c st1
        | none => expectLoop f d (now + ev.dt) st1 rest

/-- QemuDriver.expect with a timeout: the deadline is now + timeout
with the call starting at time 0. -/
def expect (f : List Nat → Option (Nat × Nat)) (timeLimit : Nat)
    (st : QemuDriver) (evs : List Event) : ExpectResult :=
  expectLoop f timeLimit 0 st evs

/-- Ghost observer of the same loop: the list of chunks the driver
reads from the subprocess during one expect call, in order. -/
def expectChunks (f : List Nat → Option (Nat × Nat)) (d : Nat) :
    Nat → QemuDriver → List Event → List (List Nat)
  | _, _, [] => []
  | now, st, ev :: rest =>
    if d ≤ now then []
    else
      let chunk := (st.pipe ++ ev.arrival).take 4096
      let st1 := expectStep st ev.arrival
      (if chunk.isEmpty then [] else [chunk]) ++
        match f st1.buf with
        | some _ => []
        | none =>
          match ev.exited with
          | some _ => []
          | none => expectChunks f d (now + ev.dt) st1 rest

/-- Number of transcript bytes already consumed from the working
buffer by successful matches: the buffer is always a suffix of the
transcript, so this is the absolute stream offset of the first
unconsumed byte. -/
def consumed (st : QemuDriver) : Nat := st.full_log.length - st.buf.length

/-- QemuDriver._read_available: repeatedly select and os.read(fd, 4096)
until nothing is left, accumulating the data.  Returns the data read
together with the bytes remaining in the pipe (always none). -/
def read_available (pipe : List Nat) (acc : List Nat) : List Nat × List Nat :=
  if hp : pipe.isEmpty then (acc, pipe)
  else
    read_available (pipe.drop 4096) (acc ++ pipe.take 4096)
termination_by pipe.length
decreasing_by
  simp only [List.isEmpty_iff] at hp
  have : pipe.length ≠ 0 := fun hl => hp (List.eq_nil_of_length_eq_zero hl)
  simp only [List.length_drop]
  omega

/-- Literal byte-string search, the restriction of Python's re search
to a plain pattern: leftmost occurrence, offsets (start, end) with end
exclusive. -/
def firstMatchFrom (pat : List Nat) : List Nat → Nat → Option (Nat × Nat)
  | b, i =>
    if pat.isPrefixOf b then some (i, i + pat.length)
    else
      match b with
      | [] => none
      | _ :: rest => firstMatchFrom pat rest (i + 1)

/-- Search for a literal pattern anywhere in the buffer. -/
def literal (pat : List Nat) (b : List Nat) : Option (Nat × Nat) :=
  firstMatchFrom pat b 0

/-! Completion markers of QemuDriver.send_cmd. -/

/-- Decimal rendering of a natural number, as Python's f-string does. -/
def natChars (n : Nat) : List Char :=
  if n = 0 then ['0'] else ((Nat.digits 10 n).map Nat.digitChar).reverse

/-- The numeric value of a decimal digit character. -/
def digitVal (c : Char) : Nat := c.toNat - 48

/-- The marker string of the template __D{n}__. -/
def mkMarker (n : Nat) : List Char :=
  ('_' :: '_' :: 'D' :: natChars n) ++ ['_', '_']

/-- The marker-generation part of QemuDriver.send_cmd: bump the class
counter _cmd_seq and render the marker from the new value. -/
def send_cmd (seq : Nat) : Nat × List Char := (seq + 1, mkMarker (seq + 1))

/-- The markers produced by n sequential send_cmd invocations starting
from counter value seq. -/
def runSendCmds : Nat → Nat → List (List Char)
  | _, 0 => []
  | seq, n + 1 => (send_cmd seq).2 :: runSendCmds (send_cmd seq).1 n

/-! The fail-fast test ladder of main. -/

/-- Tally kept by main: passed and failed counters plus, as a ghost
observation, the indices of the steps whose callable was executed. -/
structure SeqState where
  passed : Nat
  failed : Nat
  invoked : List Nat
deriving DecidableEq, Repr

/-- Executing one test step: run the callable (its outcome is ok),
record the invocation, and bump the matching counter. -/
def runStep (st : SeqState) (i : Nat) (ok : Bool) : SeqState :=
  { passed := if ok then st.passed + 1 else st.passed,
    failed := if ok then st.failed else st.failed + 1,
    invoked := st.invoked ++ [i] }

/-- The guarded ladder of main for the steps after the first: each one
runs only when failed == 0. -/
def runTestsGo : SeqState → Nat → List Bool → SeqState
  | st, _, [] => st
  | st, i, ok :: rest =>
    runTestsGo (if st.failed = 0 then runStep st i ok else st) (i + 1) rest

/-- Step section of main: the first test runs unconditionally, every
later one only when failed == 0.  steps lists the outcome each step's
callable would produce if invoked. -/
def runTests (steps : List Bool) : SeqState :=
  match steps with
  | [] => ⟨0, 0, []⟩
  | ok :: rest => runTestsGo (runStep ⟨0, 0, []⟩ 0 ok) 1 rest

/-! QemuDriver.stop. -/

/-- Termination actions stop can perform on the subprocess. -/
inductive StopAction where
  | sigterm
  | kill
deriving DecidableEq, Repr

/-- QemuDriver.stop: if there is no live subprocess handle, return at
once doing nothing; otherwise send SIGTERM and wait up to the grace
period (gracefulExit tells whether the wait succeeded), force-killing
on expiry, and clear the handle.  Returns the new driver state and the
termination actions performed. -/
def stop (d : QemuDriver) (gracefulExit : Bool) : QemuDriver × List StopAction :=
  match d.proc with
  | none => (d, [])
  | some _ =>
    if gracefulExit then ({ d with proc := none }, [.sigterm])
    else ({ d with proc := none }, [.sigterm, .kill])

/-! Helper lemmas. -/

/-- Uniform description of the read phase: the available bytes are the
pipe contents plus the arrival; a single read takes at most 4096 of
them and appends them to both the working buffer and the transcript. -/
theorem expectStep_eq (st : QemuDriver) (a : List Nat) :
    expectStep st a =
      { st with pipe := (st.pipe ++ a).drop 4096,
                buf := st.buf ++ (st.pipe ++ a).take 4096,
                full_log := st.full_log ++ (st.pipe ++ a).take 4096 } := by
  unfold expectStep
  rcases h : st.pipe ++ a with _ | ⟨x, xs⟩
  · simp
  · simp [List.isEmpty_cons]

/-- The diagnostic slice is always the last 500 bytes, or the whole
buffer when it is shorter. -/
theorem recentBuf_eq (b : List Nat) :
    recentBuf b = b.drop (b.length - 500) := by
  unfold recentBuf
  split
  · rfl
  · next h =>
    have : b.length - 500 = 0 := by omega
    simp [this]

/-- Joining the chunk contribution of one iteration. -/
theorem join_chunkPart (c : List Nat) (r : List (List Nat)) :
    ((if c.isEmpty then [] else [c]) ++ r).flatten = c ++ r.flatten := by
  rcases c with _ | ⟨x, xs⟩ <;> simp

/-- Unfolding of expectChunks on a live iteration. -/
theorem expectChunks_cons (f : List Nat → Option (Nat × Nat)) (d now : Nat)
    (st : QemuDriver) (ev : Event) (rest : List Event) (hd : ¬ d ≤ now) :
    (expectChunks f d now st (ev :: rest)).flatten =
      (st.pipe ++ ev.arrival).take 4096 ++
        (match f (expectStep st ev.arrival).buf with
         | some _ => ([] : List (List Nat))
         | none =>
           match ev.exited with
           | some _ => []
           | none => expectChunks f d (now + ev.dt) (expectStep st ev.arrival) rest).flatten := by
  conv_lhs => rw [expectChunks]
  rw [if_neg hd, join_chunkPart]

theorem expectStep_buf (st : QemuDriver) (a : List Nat) :
    (expectStep st a).buf = st.buf ++ (st.pipe ++ a).take 4096 := by
  rw [expectStep_eq]

theorem expectStep_full_log (st : QemuDriver) (a : List Nat) :
    (expectStep st a).full_log = st.full_log ++ (st.pipe ++ a).take 4096 := by
  rw [expectStep_eq]

theorem expectStep_proc (st : QemuDriver) (a : List Nat) :
    (expectStep st a).proc = st.proc := by
  rw [expectStep_eq]

/-- How a result's working buffer relates to the pre-call state st and
the bytes J appended during the call: on a match, everything up to the
match end is discarded and the search function reported the match on
the buffer at match time; on every other outcome the buffer is the old
buffer plus the appended bytes, with nothing consumed. -/
def BufSpec (st : QemuDriver) (J : List Nat)
    (f : List Nat → Option (Nat × Nat)) : ExpectResult → Prop
  | .matched s e st' =>
      st'.buf = (st.buf ++ J).drop e ∧ f (st.buf ++ J) = some (s, e)
  | .timeout _ st' => st'.buf = st.buf ++ J
  | .procExit _ st' => st'.buf = st.buf ++ J
  | .fuelOut st' => st'.buf = st.buf ++ J

/-- BufSpec transfers one step backwards over an append. -/
theorem bufSpec_shift (st st1 : QemuDriver) (A J : List Nat)
    (f : List Nat → Option (Nat × Nat)) (res : ExpectResult)
    (hb : st1.buf = st.buf ++ A) (h : BufSpec st1 J f res) :
    BufSpec st (A ++ J) f res := by
  rcases res with ⟨s, e, st'⟩ | ⟨r, st'⟩ | ⟨c, st'⟩ | st' <;>
    simp only [BufSpec, hb, List.append_assoc] at h ⊢ <;> exact h

/-- Central run lemma for the expect loop: the final transcript is the
initial transcript followed by exactly the chunks read, in order; the
subprocess handle is untouched; and the final working buffer is the
initial buffer plus the chunks read, prefix-truncated up to the match
end exactly when the call returned a match (in which case the search
function did report that match on the buffer at match time). -/
theorem expectLoop_spec (f : List Nat → Option (Nat × Nat)) (d : Nat) :
    ∀ (evs : List Event) (now : Nat) (st : QemuDriver) (res : ExpectResult),
      expectLoop f d now st evs = res →
      (stateOf res).full_log = st.full_log ++ (expectChunks f d now st evs).flatten ∧
      (stateOf res).proc = st.proc ∧
      BufSpec st (expectChunks f d now st evs).flatten f res := by
  intro evs
  induction evs with
  | nil =>
    intro now st res h
    by_cases hd : d ≤ now <;>
      simp only [expectLoop, expectChunks, hd, if_true, if_false, reduceIte] at h <;>
      subst h <;> exact ⟨by simp [stateOf, expectChunks], rfl, by simp [BufSpec, expectChunks]⟩
  | cons ev rest ih =>
    intro now st res h
    by_cases hd : d ≤ now
    · simp only [expectLoop, hd, if_true] at h
      subst h
      exact ⟨by simp [stateOf, expectChunks, hd], rfl,
             by simp [BufSpec, expectChunks, hd]⟩
    · simp only [expectLoop, hd, if_false, reduceIte] at h
      have hflat := expectChunks_cons f d now st ev rest hd
      rcases hf : f (expectStep st ev.arrival).buf with _ | ⟨s, e⟩
      · rcases hex : ev.exited with _ | c
        · -- no match, subprocess alive: loop again
          simp only [hf, hex] at h hflat
          obtain ⟨h1, h2, h3⟩ := ih (now + ev.dt) (expectStep st ev.arrival) res h
          refine ⟨?_, ?_, ?_⟩
          · rw [hflat, h1, expectStep_full_log, List.append_assoc]
          · rw [h2, expectStep_proc]
          · rw [hflat]
            exact bufSpec_shift st (expectStep st ev.arrival) _ _ f res
              (expectStep_buf st ev.arrival) h3
        · -- no match and the subprocess has exited
          simp only [hf, hex] at h hflat
          subst h
          rw [List.flatten_nil, List.append_nil] at hflat
          refine ⟨?_, ?_, ?_⟩
          · rw [hflat]
            exact expectStep_full_log st ev.arrival
          · exact expectStep_proc st ev.arrival
          · simp only [BufSpec, stateOf, hflat]
            exact expectStep_buf st ev.arrival
      · -- match found: truncate up to the match end and return it
        simp only [hf] at h hflat
        subst h
        rw [List.flatten_nil, List.append_nil] at hflat
        refine ⟨?_, ?_, ?_⟩
        · rw [hflat]
          exact expectStep_full_log st ev.arrival
        · exact expectStep_proc st ev.arrival
        · simp only [BufSpec, stateOf, hflat]
          rw [← expectStep_buf st ev.arrival]
          exact ⟨rfl, hf⟩

/-- Validity of literal search offsets relative to the scan origin. -/
theorem firstMatchFrom_valid (pat : List Nat) :
    ∀ (b : List Nat) (i s e : Nat), firstMatchFrom pat b i = some (s, e) →
      i ≤ s ∧ s ≤ e ∧ e ≤ i + b.length := by
  intro b
  induction b with
  | nil =>
    intro i s e h
    rw [firstMatchFrom] at h
    split at h
    · next hp =>
      have hle : pat.length ≤ ([] : List Nat).length :=
        (List.isPrefixOf_iff_prefix.mp hp).length_le
      obtain ⟨rfl, rfl⟩ : i = s ∧ i + pat.length = e := by
        simpa using h
      simp only [List.length_nil] at hle
      omega
    · simp at h
  | cons x xs ih =>
    intro i s e h
    rw [firstMatchFrom] at h
    split at h
    · next hp =>
      have hle : pat.length ≤ (x :: xs).length :=
        (List.isPrefixOf_iff_prefix.mp hp).length_le
      obtain ⟨rfl, rfl⟩ : i = s ∧ i + pat.length = e := by
        simpa using h
      omega
    · obtain ⟨h1, h2, h3⟩ := ih (i + 1) s e h
      simp only [List.length_cons]
      omega

/-- A literal search result is a well-formed half-open slice of the
searched buffer. -/
theorem literal_valid (pat : List Nat) :
    ∀ (b : List Nat) (s e : Nat), literal pat b = some (s, e) →
      s ≤ e ∧ e ≤ b.length := by
  intro b s e h
  obtain ⟨h1, h2, h3⟩ := firstMatchFrom_valid pat b 0 s e h
  omega

/-! Claim theorems about the expect loop. -/

/-- C10: when the deadline has already elapsed at the top of the expect
loop (for instance a call with timeout 0), the call raises the timeout
error at once, carrying the recent-buffer slice, and the driver state
is returned untouched: nothing is consumed from the working buffer,
even if it already contains bytes the pattern would match, because the
deadline check precedes the match attempt. -/
theorem deadline_check_precedes_match (f : List Nat → Option (Nat × Nat))
    (d now : Nat) (st : QemuDriver) (evs : List Event) (h : d ≤ now) :
    expectLoop f d now st evs = .timeout (recentBuf st.buf) st := by
  cases evs <;> simp [expectLoop, h]

/-- Witness for C10: the working buffer [97] already matches the
pattern, yet a call whose deadline is elapsed times out with the
buffer unconsumed. -/
theorem deadline_check_precedes_match_witness :
    literal [97] (QemuDriver.mk none [] [97] [97]).buf = some (0, 1) ∧
    expectLoop (literal [97]) 0 0 ⟨none, [], [97], [97]⟩ [⟨[], 1, none⟩] =
      .timeout [97] ⟨none, [], [97], [97]⟩ :=
  ⟨by decide,
   deadline_check_precedes_match (literal [97]) 0 0 ⟨none, [], [97], [97]⟩
     [⟨[], 1, none⟩] (by decide)⟩

/-- C7: in any iteration of the expect loop that is not past its
deadline, if the pattern does not match the working buffer after the
read phase and proc.poll() reports the subprocess exited, the call
fails at once with procExit carrying the exit code — regardless of how
much time remains and of any later events. -/
theorem dead_process_detection (f : List Nat → Option (Nat × Nat))
    (d now : Nat) (st : QemuDriver) (ev : Event) (rest : List Event) (c : Int)
    (hnow : ¬ d ≤ now) (hex : ev.exited = some c)
    (hnm : f (expectStep st ev.arrival).buf = none) :
    expectLoop f d now st (ev :: rest) = .procExit c (expectStep st ev.arrival) := by
  simp [expectLoop, hnow, hnm, hex]

/-- Witness for C7: a subprocess dead from the first iteration is
reported in that iteration, long before the deadline (30) could be
reached through the remaining events. -/
theorem dead_process_detection_witness :
    expectLoop (literal [98]) 30 0 ⟨some 5, [], [], []⟩
        [⟨[], 1, some 1⟩, ⟨[], 1, none⟩] =
      .procExit 1 ⟨some 5, [], [], []⟩ :=
  dead_process_detection (literal [98]) 30 0 ⟨some 5, [], [], []⟩
    ⟨[], 1, some 1⟩ [⟨[], 1, none⟩] 1 (by decide) rfl (by decide)

/-- Timeout lemma: if no extension of the current working buffer
matches, the subprocess never exits, and every iteration takes at
least one tick, then as soon as the modelled events outlast the
deadline the loop ends in a timeout carrying the recent-buffer
slice. -/
theorem expectLoop_timeout (f : List Nat → Option (Nat × Nat)) (d : Nat) :
    ∀ (evs : List Event) (now : Nat) (st : QemuDriver),
      (∀ x : List Nat, f (st.buf ++ x) = none) →
      (∀ ev ∈ evs, ev.exited = none ∧ 1 ≤ ev.dt) →
      d ≤ now + evs.length →
      ∃ st', expectLoop f d now st evs = .timeout (recentBuf st'.buf) st' := by
  intro evs
  induction evs with
  | nil =>
    intro now st hno hev hfuel
    refine ⟨st, ?_⟩
    have hd : d ≤ now := by simpa using hfuel
    simp [expectLoop, hd]
  | cons ev rest ih =>
    intro now st hno hev hfuel
    by_cases hd : d ≤ now
    · exact ⟨st, by simp [expectLoop, hd]⟩
    · have hfz : f (expectStep st ev.arrival).buf = none := by
        rw [expectStep_buf]
        exact hno _
      have hexz : ev.exited = none := (hev ev (List.mem_cons_self ev rest)).1
      have hdt : 1 ≤ ev.dt := (hev ev (List.mem_cons_self ev rest)).2
      obtain ⟨st', hst'⟩ := ih (now + ev.dt) (expectStep st ev.arrival)
        (by
          intro x
          rw [expectStep_buf, List.append_assoc]
          exact hno _)
        (fun e he => hev e (List.mem_cons_of_mem ev he))
        (by
          simp only [List.length_cons] at hfuel
          omega)
      refine ⟨st', ?_⟩
      simp only [expectLoop, if_neg hd, hfz, hexz]
      exact hst'

/-- C6: an expect call against a stream that never produces a match
does not hang: once the events outlast the timeout it fails with the
timeout error, and the error carries the last 500 bytes of the working
buffer (all of it when shorter). -/
theorem timeout_determinism (f : List Nat → Option (Nat × Nat)) (T : Nat)
    (st : QemuDriver) (evs : List Event)
    (hno : ∀ x : List Nat, f (st.buf ++ x) = none)
    (hev : ∀ ev ∈ evs, ev.exited = none ∧ 1 ≤ ev.dt)
    (hfuel : T ≤ evs.length) :
    ∃ st', expect f T st evs =
      .timeout (st'.buf.drop (st'.buf.length - 500)) st' := by
  obtain ⟨st', h⟩ := expectLoop_timeout f T evs 0 st hno hev (by omega)
  exact ⟨st', by rw [expect, h, recentBuf_eq]⟩

/-- Witness for C6: a pattern that can never match, against two quiet
ticks with a one-byte arrival, times out with the buffered byte in the
diagnostic slice. -/
theorem timeout_determinism_witness :
    ∃ st', expect (fun _ => none) 2 ⟨none, [], [], []⟩
        [⟨[97], 1, none⟩, ⟨[], 1, none⟩] =
      .timeout (st'.buf.drop (st'.buf.length - 500)) st' :=
  timeout_determinism (fun _ => none) 2 ⟨none, [], [], []⟩
    [⟨[97], 1, none⟩, ⟨[], 1, none⟩] (fun _ => rfl) (by decide) (by decide)

/-- C5: after any expect call the transcript equals the transcript it
started from followed by exactly the chunks read from the subprocess,
in order, whatever the pattern consumed from the working buffer; in
particular the transcript is append-only and never truncated. -/
theorem transcript_completeness (f : List Nat → Option (Nat × Nat))
    (d now : Nat) (st : QemuDriver) (evs : List Event) (res : ExpectResult)
    (h : expectLoop f d now st evs = res) :
    (stateOf res).full_log = st.full_log ++ (expectChunks f d now st evs).flatten ∧
    st.full_log <+: (stateOf res).full_log := by
  have h1 := (expectLoop_spec f d evs now st res h).1
  exact ⟨h1, h1 ▸ List.prefix_append _ _⟩

/-- Witness for C5: a run that reads the chunk [10, 97], matches and
consumes part of it, yet leaves the full transcript intact. -/
theorem transcript_completeness_witness :
    (stateOf (expectLoop (literal [97]) 5 0 ⟨none, [], [], []⟩
        [⟨[10, 97], 1, none⟩])).full_log =
      [] ++ (expectChunks (literal [97]) 5 0 ⟨none, [], [], []⟩
        [⟨[10, 97], 1, none⟩]).flatten ∧
    ([] : List Nat) <+: (stateOf (expectLoop (literal [97]) 5 0 ⟨none, [], [], []⟩
        [⟨[10, 97], 1, none⟩])).full_log :=
  transcript_completeness (literal [97]) 5 0 ⟨none, [], [], []⟩
    [⟨[10, 97], 1, none⟩] _ rfl

/-- C8: the working buffer is mutated only by appending the bytes read
from the subprocess and, on a successful match only, by
prefix-truncation up to the match end; on a timeout, a subprocess
exit, or fuel exhaustion the buffer is exactly the old buffer plus the
appended bytes — nothing is consumed on an error path. -/
theorem working_buffer_discipline (f : List Nat → Option (Nat × Nat))
    (d now : Nat) (st : QemuDriver) (evs : List Event) (res : ExpectResult)
    (h : expectLoop f d now st evs = res) :
    BufSpec st (expectChunks f d now st evs).flatten f res :=
  (expectLoop_spec f d evs now st res h).2.2

/-- Witness for C8: a failing call (the subprocess died) appends the
chunk it read but consumes nothing from the working buffer. -/
theorem working_buffer_discipline_witness :
    BufSpec ⟨some 3, [10], [97], [97]⟩
      (expectChunks (literal [99]) 9 0 ⟨some 3, [10], [97], [97]⟩
        [⟨[98], 1, some 2⟩]).flatten
      (literal [99])
      (expectLoop (literal [99]) 9 0 ⟨some 3, [10], [97], [97]⟩
        [⟨[98], 1, some 2⟩]) :=
  working_buffer_discipline (literal [99]) 9 0 ⟨some 3, [10], [97], [97]⟩
    [⟨[98], 1, some 2⟩] _ rfl

/-- C1: monotonic buffer consumption.  consumed st1 is the absolute
(exclusive) end offset in the output stream of the first match, and
the second match occupies the absolute offsets from
consumed st2 - (e2 - s2) up to consumed st2.  For two successive
successful expect calls the second match starts no earlier than the
end of the first, so every byte offset the second match occupies is
strictly greater than every offset before the end of the first match:
two expect calls in sequence never match the same output bytes. -/
theorem monotonic_buffer_consumption
    (f1 f2 : List Nat → Option (Nat × Nat)) (d1 d2 n1 n2 : Nat)
    (st st1 st2 : QemuDriver) (evs1 evs2 : List Event) (s1 e1 s2 e2 : Nat)
    (hlen : st.buf.length ≤ st.full_log.length)
    (hval1 : ∀ b s e, f1 b = some (s, e) → s ≤ e ∧ e ≤ b.length)
    (hval2 : ∀ b s e, f2 b = some (s, e) → s ≤ e ∧ e ≤ b.length)
    (h1 : expectLoop f1 d1 n1 st evs1 = .matched s1 e1 st1)
    (h2 : expectLoop f2 d2 n2 st1 evs2 = .matched s2 e2 st2) :
    consumed st1 + (e2 - s2) ≤ consumed st2 ∧
    ∀ i j : Nat, i < consumed st1 → consumed st2 - (e2 - s2) ≤ j → i < j := by
  obtain ⟨hl1, -, hb1⟩ := expectLoop_spec f1 d1 evs1 n1 st (.matched s1 e1 st1) h1
  obtain ⟨hl2, -, hb2⟩ := expectLoop_spec f2 d2 evs2 n2 st1 (.matched s2 e2 st2) h2
  simp only [stateOf] at hl1 hl2
  obtain ⟨hbuf1, hf1⟩ := hb1
  obtain ⟨hbuf2, hf2⟩ := hb2
  obtain ⟨hs1, he1⟩ := hval1 _ _ _ hf1
  obtain ⟨hs2, he2⟩ := hval2 _ _ _ hf2
  have l1 := congrArg List.length hl1
  have l2 := congrArg List.length hl2
  have lb1 := congrArg List.length hbuf1
  have lb2 := congrArg List.length hbuf2
  simp only [List.length_append, List.length_drop] at l1 l2 lb1 lb2 he1 he2
  unfold consumed
  constructor
  · omega
  · intro i j hi hj
    omega

/-- Witness for C1: two consecutive matching expect calls on the
stream [10, 97] then [98, 10]; the first match ends at absolute offset
2, the second occupies offset 3, strictly beyond it. -/
theorem monotonic_buffer_consumption_witness :
    consumed ⟨none, [], [], [10, 97]⟩ + (2 - 1) ≤
      consumed ⟨none, [], [], [10, 97, 98, 10]⟩ :=
  (monotonic_buffer_consumption (literal [97]) (literal [10]) 5 5 0 0
    ⟨none, [], [], []⟩ ⟨none, [], [], [10, 97]⟩ ⟨none, [], [], [10, 97, 98, 10]⟩
    [⟨[10, 97], 1, none⟩] [⟨[98, 10], 1, none⟩] 1 2 1 2
    (by decide) (literal_valid [97]) (literal_valid [10])
    (by decide) (by decide)).1

/-! Claim C4: single read versus drain-all. -/

/-- C4 counterexample: with 4097 bytes available and the descriptor
readable, the read phase of one expect-loop iteration does not append
all currently available bytes to the working buffer before the match
is re-run — only the first 4096 arrive. -/
theorem single_read_counterexample :
    (expectStep ⟨none, List.replicate 4097 0, [], []⟩ []).buf ≠
      [] ++ (List.replicate 4097 0 ++ []) := by
  intro h
  have hlen := congrArg List.length h
  rw [expectStep_buf] at hlen
  simp only [List.nil_append, List.append_nil, List.length_append,
    List.length_take, List.length_replicate, List.length_nil] at hlen
  omega

/-- read_available does drain the pipe completely. -/
theorem read_available_drains (n : Nat) :
    ∀ (pipe acc : List Nat), pipe.length ≤ n →
      read_available pipe acc = (acc ++ pipe, []) := by
  induction n with
  | zero =>
    intro pipe acc hle
    have : pipe = [] := List.eq_nil_of_length_eq_zero (by omega)
    subst this
    rw [read_available]
    simp
  | succ n ih =>
    intro pipe acc hle
    rw [read_available]
    split
    · next hp =>
      rw [List.isEmpty_iff.mp hp]
      simp
    · next hp =>
      have hne : pipe ≠ [] := fun h => hp (by rw [h]; rfl)
      have hlen : (pipe.drop 4096).length ≤ n := by
        have : pipe.length ≠ 0 := fun h => hne (List.eq_nil_of_length_eq_zero h)
        simp only [List.length_drop]
        omega
      rw [ih (pipe.drop 4096) (acc ++ pipe.take 4096) hlen]
      rw [List.append_assoc, List.take_append_drop]

/-- C4 amended: within one expect call, whenever the descriptor polls
readable the driver performs a single non-blocking read of at most
4096 bytes and appends that one chunk to both the working buffer and
the transcript before re-running the pattern match; any remaining
available bytes stay in the pipe for later iterations.  The
drain-in-one-pass behaviour the claim describes belongs to the helper
read_available, which the expect loop does not use. -/
theorem single_read_per_poll (st : QemuDriver) (a : List Nat) :
    ((expectStep st a).buf = st.buf ++ (st.pipe ++ a).take 4096 ∧
     (expectStep st a).full_log = st.full_log ++ (st.pipe ++ a).take 4096 ∧
     (expectStep st a).pipe = (st.pipe ++ a).drop 4096) ∧
    ∀ p : List Nat, read_available p [] = (p, []) :=
  ⟨⟨expectStep_buf st a, expectStep_full_log st a, by rw [expectStep_eq]⟩,
   fun p => by
     have := read_available_drains p.length p [] (Nat.le_refl _)
     simpa using this⟩

/-! Claim C2: fail-fast sequencing. -/

/-- Once a failure is recorded, the rest of the ladder does nothing:
no callable runs and no counter moves. -/
theorem runTestsGo_stuck :
    ∀ (steps : List Bool) (st : SeqState) (i : Nat),
      st.failed ≠ 0 → runTestsGo st i steps = st := by
  intro steps
  induction steps with
  | nil => intro st i h; rfl
  | cons ok rest ih =>
    intro st i h
    rw [runTestsGo, if_neg h]
    exact ih st (i + 1) h

/-- Running the guarded ladder over steps whose first failure sits at
relative index k invokes exactly the first k+1 steps, records one
failure, and counts the k passing steps before it. -/
theorem runTestsGo_firstFail :
    ∀ (steps : List Bool) (k : Nat) (st : SeqState) (i : Nat),
      st.failed = 0 → steps[k]? = some false →
      (∀ j, j < k → steps[j]? = some true) →
      runTestsGo st i steps =
        ⟨st.passed + k, 1, st.invoked ++ List.range' i (k + 1)⟩ := by
  intro steps
  induction steps with
  | nil =>
    intro k st i h0 hk hprev
    simp at hk
  | cons ok rest ih =>
    intro k st i h0 hk hprev
    rcases k with _ | k'
    · have hok : ok = false := by simpa using hk
      subst hok
      rw [runTestsGo, if_pos h0]
      rw [runTestsGo_stuck rest (runStep st i false) (i + 1)
        (by simp [runStep, h0])]
      simp [runStep, h0, List.range']
    · have hok : ok = true := by simpa using hprev 0 (Nat.succ_pos k')
      subst hok
      rw [runTestsGo, if_pos h0]
      rw [ih k' (runStep st i true) (i + 1) (by simp [runStep, h0])
        (by simpa using hk)
        (fun j hj => by simpa using hprev (j + 1) (Nat.succ_lt_succ hj))]
      have hpass : (runStep st i true).passed = st.passed + 1 := by
        simp [runStep]
      have hinv : (runStep st i true).invoked = st.invoked ++ [i] := rfl
      rw [hpass, hinv, List.range'_succ i (k' + 1) 1, List.append_assoc]
      simp only [List.singleton_append, SeqState.mk.injEq]
      exact ⟨by omega, by simp, by simp⟩

/-- C2: fail-fast sequencing of main.  If the step at index k is the
first failing one, then exactly the steps 0..k are invoked (steps
k+1.. are never executed), the failed count is 1 — exactly the
invoked-and-failed steps — and the passed count is k, so skipped steps
are counted neither as passed nor as failed. -/
theorem fail_fast_sequencing (steps : List Bool) (k : Nat)
    (hfail : steps[k]? = some false)
    (hprev : ∀ j, j < k → steps[j]? = some true) :
    (runTests steps).invoked = List.range (k + 1) ∧
    (runTests steps).failed = 1 ∧
    (runTests steps).passed = k := by
  rcases steps with _ | ⟨ok, rest⟩
  · simp at hfail
  · rcases k with _ | k'
    · have hok : ok = false := by simpa using hfail
      subst hok
      rw [runTests]
      rw [runTestsGo_stuck rest (runStep ⟨0, 0, []⟩ 0 false) 1
        (by simp [runStep])]
      refine ⟨?_, ?_, ?_⟩ <;> simp [runStep, List.range_succ]
    · have hok : ok = true := by simpa using hprev 0 (Nat.succ_pos k')
      subst hok
      rw [runTests]
      rw [runTestsGo_firstFail rest k' (runStep ⟨0, 0, []⟩ 0 true) 1
        (by simp [runStep])
        (by simpa using hfail)
        (fun j hj => by simpa using hprev (j + 1) (Nat.succ_lt_succ hj))]
      refine ⟨?_, rfl, by simp [runStep]; omega⟩
      show (⟨0, 0, []⟩ : SeqState).invoked ++ [0] ++ List.range' 1 (k' + 1) =
        List.range (k' + 1 + 1)
      rw [List.range_eq_range', List.range'_succ 0 (k' + 1) 1]
      rfl

/-- Witness for C2: in [true, false, true] the failure at index 1 stops
the run; only steps 0 and 1 are invoked, one failure, one pass. -/
theorem fail_fast_sequencing_witness :
    (runTests [true, false, true]).invoked = List.range 2 ∧
    (runTests [true, false, true]).failed = 1 ∧
    (runTests [true, false, true]).passed = 1 :=
  fail_fast_sequencing [true, false, true] 1 (by decide)
    (fun j hj => by interval_cases j <;> decide)

/-! Claim C3: marker uniqueness. -/

/-- digitVal inverts Nat.digitChar on decimal digits. -/
theorem digitVal_digitChar {d : Nat} (hd : d < 10) :
    digitVal (Nat.digitChar d) = d := by
  interval_cases d <;> decide

/-- Mapping back through digitVal recovers a decimal digit list. -/
theorem map_digitVal_digitChar :
    ∀ (l : List Nat), (∀ d ∈ l, d < 10) →
      (l.map Nat.digitChar).map digitVal = l := by
  intro l
  induction l with
  | nil => intro _; rfl
  | cons x xs ih =>
    intro h
    simp only [List.map_cons, List.cons.injEq]
    exact ⟨digitVal_digitChar (h x (List.mem_cons_self x xs)),
           ih (fun d hd => h d (List.mem_cons_of_mem x hd))⟩

/-- Rendering the decimal digits of a number is injective. -/
theorem digits_map_inj {m n : Nat}
    (h : (Nat.digits 10 m).map Nat.digitChar =
      (Nat.digits 10 n).map Nat.digitChar) : m = n := by
  have hm := map_digitVal_digitChar (Nat.digits 10 m)
    (fun d hd => Nat.digits_lt_base (by norm_num) hd)
  have hn := map_digitVal_digitChar (Nat.digits 10 n)
    (fun d hd => Nat.digits_lt_base (by norm_num) hd)
  have hdig : Nat.digits 10 m = Nat.digits 10 n := by
    rw [← hm, ← hn, h]
  have := congrArg (Nat.ofDigits 10) hdig
  rwa [Nat.ofDigits_digits, Nat.ofDigits_digits] at this

/-- A nonzero number never renders as the single character 0. -/
theorem natChars_ne_zero {n : Nat} (hn : n ≠ 0) :
    ((Nat.digits 10 n).map Nat.digitChar).reverse ≠ ['0'] := by
  intro h
  have h1 : (Nat.digits 10 n).map Nat.digitChar = ['0'] := by
    have := congrArg List.reverse h
    simpa using this
  have h2 : Nat.digits 10 n = [0] := by
    have := congrArg (List.map digitVal) h1
    rwa [map_digitVal_digitChar (Nat.digits 10 n)
      (fun d hd => Nat.digits_lt_base (by norm_num) hd)] at this
  have := congrArg (Nat.ofDigits 10) h2
  rw [Nat.ofDigits_digits] at this
  simp [Nat.ofDigits] at this
  exact hn this

/-- The decimal rendering is injective. -/
theorem natChars_inj {m n : Nat} (h : natChars m = natChars n) : m = n := by
  unfold natChars at h
  by_cases hm : m = 0 <;> by_cases hn : n = 0
  · omega
  · rw [if_pos hm, if_neg hn] at h
    exact absurd h.symm (natChars_ne_zero hn)
  · rw [if_neg hm, if_pos hn] at h
    exact absurd h (natChars_ne_zero hm)
  · rw [if_neg hm, if_neg hn] at h
    have := List.reverse_injective h
    exact digits_map_inj this

/-- The marker template is injective in the embedded integer. -/
theorem mkMarker_inj {m n : Nat} (h : mkMarker m = mkMarker n) : m = n := by
  unfold mkMarker at h
  simp only [List.cons_append, List.cons.injEq, true_and] at h
  exact natChars_inj (List.append_cancel_right h)

/-- Closed form of the marker sequence. -/
theorem runSendCmds_eq :
    ∀ (n s0 : Nat),
      runSendCmds s0 n = (List.range n).map (fun i => mkMarker (s0 + i + 1)) := by
  intro n
  induction n with
  | zero => intro s0; rfl
  | succ n ih =>
    intro s0
    rw [runSendCmds]
    rw [show (send_cmd s0).1 = s0 + 1 from rfl, ih (s0 + 1),
      List.range_succ_eq_map, List.map_cons, List.map_map]
    refine congrArg₂ List.cons rfl ?_
    refine List.map_congr_left (fun i _ => ?_)
    exact congrArg mkMarker (by omega)

/-- C3: marker uniqueness.  N sequential send_cmd invocations from any
starting counter value produce the markers of the integers
s0+1, ..., s0+N in order: the rendered marker strings are pairwise
distinct, and the embedded integer sequence is strictly increasing. -/
theorem marker_uniqueness (s0 n : Nat) :
    runSendCmds s0 n = (List.range n).map (fun i => mkMarker (s0 + i + 1)) ∧
    (runSendCmds s0 n).Pairwise (· ≠ ·) ∧
    ((List.range n).map (fun i => s0 + i + 1)).Pairwise (· < ·) := by
  have hrange : (List.range n).Pairwise (· < ·) := by
    rw [List.range_eq_range']
    exact List.pairwise_lt_range' 0 n 1 (by decide)
  refine ⟨runSendCmds_eq n s0, ?_, ?_⟩
  · rw [runSendCmds_eq n s0]
    refine List.Pairwise.map _ (fun a b hab hEq => ?_) hrange
    have := mkMarker_inj hEq
    omega
  · exact List.Pairwise.map _ (fun a b hab => by omega) hrange

/-! Claim C9: stop is idempotent. -/

/-- C9: stop on an already-stopped driver (no live subprocess handle)
returns immediately: the driver state is unchanged and no termination
action is performed; and a second stop after any stop does nothing, so
stop composed with stop equals a single stop. -/
theorem stop_idempotent (d : QemuDriver) (g g' : Bool) :
    (d.proc = none → stop d g = (d, [])) ∧
    (stop (stop d g).1 g').1 = (stop d g).1 ∧
    (stop (stop d g).1 g').2 = [] := by
  rcases hp : d.proc with _ | p <;> cases g <;> cases g' <;>
    simp [stop, hp]

/-- Witness for C9: stopping a stopped driver does nothing; a second
stop after stopping a live driver does nothing further. -/
theorem stop_idempotent_witness :
    stop ⟨none, [], [], []⟩ true = (⟨none, [], [], []⟩, []) ∧
    (stop (stop ⟨some 7, [1], [2], [3]⟩ false).1 true).1 =
      (stop ⟨some 7, [1], [2], [3]⟩ false).1 ∧
    (stop (stop ⟨some 7, [1], [2], [3]⟩ false).1 true).2 = [] :=
  ⟨(stop_idempotent ⟨none, [], [], []⟩ true true).1 rfl,
   (stop_idempotent ⟨some 7, [1], [2], [3]⟩ false true).2.1,
   (stop_idempotent ⟨some 7, [1], [2], [3]⟩ false true).2.2⟩

end Fornax
